import Mathlib

/-!
Verification of the delta-computation core of mqtt-delta (src/main.ts).

The model is a shallow embedding of the TypeScript source. JSON values
(the structured messages) are modelled by the inductive type Value below;
JavaScript numbers are modelled as integers (no claim depends on
non-integral numerics). JavaScript objects preserve key insertion order,
modelled by association lists; JSON.parse never produces duplicate keys,
so well-formedness (hereditarily duplicate-free keys) is an explicit
predicate used where a claim quantifies over mappings.

Modelling notes on JavaScript property access, for the functions that
perform previous[key] / current[key] lookups and for-in enumeration:
an array is typeof object and exposes its elements under canonical
decimal index strings, which is modelled; non-index array properties
(length, inherited prototype methods) and character indexing on
primitive strings are outside the fragment any claim exercises and are
modelled as absent. A primitive string is not typeof object, so both
the resolver loop and the recursion guard of the diff already treat it
as a scalar everywhere the claims look.
-/

/-- Value models a decoded JSON value: null, booleans, numbers (as Int),
strings, arrays, and insertion-ordered objects. -/
inductive Value where
  | null : Value
  | bool : Bool → Value
  | num : Int → Value
  | str : String → Value
  | arr : List Value → Value
  | obj : List (String × Value) → Value

/-- FilterCondition models config.messageFiltering.condition in main.ts:
a dot path and the value that must appear there. -/
structure FilterCondition where
  path : String
  value : Value

/-- Config models the change-detection and filtering part of the config
object of main.ts: ignoredKeys, ignoredPaths and the filter condition. -/
structure Config where
  ignoredKeys : List String
  ignoredPaths : List String
  condition : FilterCondition

/-- digitChar maps a digit 0..9 to its ASCII character. -/
def digitChar : Nat → Char
  | 0 => '0'
  | 1 => '1'
  | 2 => '2'
  | 3 => '3'
  | 4 => '4'
  | 5 => '5'
  | 6 => '6'
  | 7 => '7'
  | 8 => '8'
  | 9 => '9'
  | _ => '*'

/-- natDigitsAux computes the decimal digits of n, most significant
first, with explicit fuel (fuel at least n suffices). -/
def natDigitsAux : Nat → Nat → List Char
  | _, 0 => []
  | 0, _ + 1 => []
  | n + 1, fuel + 1 => natDigitsAux ((n + 1) / 10) fuel ++ [digitChar ((n + 1) % 10)]

/-- natToDecimal renders a natural number the way JavaScript renders an
array index as a property key: canonical base-10, no leading zeros. -/
def natToDecimal (n : Nat) : String :=
  if n = 0 then "0" else String.mk (natDigitsAux n n)

/-- intToDecimal renders an integer in decimal, as JSON.stringify does
for (integral) numbers. -/
def intToDecimal : Int → String
  | .ofNat m => natToDecimal m
  | .negSucc m => "-" ++ natToDecimal (m + 1)

/-- escapeChar is the JSON string escape for one character (quote and
backslash; control-character escapes are outside the modelled fragment). -/
def escapeChar (c : Char) : String :=
  if c = '"' then "\\\"" else if c = '\\' then "\\\\" else String.mk [c]

/-- escapeStr escapes every character of a string for JSON output. -/
def escapeStr (s : String) : String :=
  String.join (s.data.map escapeChar)

/-- quoteStr renders a string as a JSON string literal. -/
def quoteStr (s : String) : String :=
  "\"" ++ escapeStr s ++ "\""

mutual
/-- stringify models JSON.stringify on a decoded JSON value, using each
object's own insertion order. -/
def stringify : Value → String
  | .null => "null"
  | .bool b => if b then "true" else "false"
  | .num n => intToDecimal n
  | .str s => quoteStr s
  | .arr xs => "[" ++ stringifyList xs ++ "]"
  | .obj fs => "\x7b" ++ stringifyFields fs ++ "\x7d"

/-- stringifyList renders array elements, comma-separated. -/
def stringifyList : List Value → String
  | [] => ""
  | [v] => stringify v
  | v :: rest => stringify v ++ "," ++ stringifyList rest

/-- stringifyFields renders object fields, comma-separated, in order. -/
def stringifyFields : List (String × Value) → String
  | [] => ""
  | [(k, v)] => quoteStr k ++ ":" ++ stringify v
  | (k, v) :: rest => quoteStr k ++ ":" ++ stringify v ++ "," ++ stringifyFields rest
end

/-- lookupFields is first-match association-list lookup; JavaScript
objects have unique keys, so first match is the binding. -/
def lookupFields : List (String × Value) → String → Option Value
  | [], _ => none
  | (k, v) :: rest, key => if k = key then some v else lookupFields rest key

/-- idxEntries pairs the elements of a list with their canonical decimal
index strings, starting at i: the own enumerable properties of a
JavaScript array. -/
def idxEntries : List Value → Nat → List (String × Value)
  | [], _ => []
  | v :: rest, i => (natToDecimal i, v) :: idxEntries rest (i + 1)

/-- getProp models the JavaScript property access v[key] for the values
the core performs it on: object field lookup, array index lookup via the
canonical decimal key; absent on scalars and null. -/
def getProp : Value → String → Option Value
  | .obj fs, key => lookupFields fs key
  | .arr xs, key => lookupFields (idxEntries xs 0) key
  | _, _ => none

/-- entries lists the own enumerable properties that a for-in loop over
the value visits: object fields in insertion order, array elements under
their index keys. -/
def entries : Value → List (String × Value)
  | .obj fs => fs
  | .arr xs => idxEntries xs 0
  | _ => []

/-- isObjLike models (typeof v === 'object' and v !== null): true exactly
for arrays and objects. -/
def isObjLike : Value → Bool
  | .arr _ => true
  | .obj _ => true
  | _ => false

/-- isFalsyVal models JavaScript falsiness of a decoded JSON value, as
tested by (!previous) in detectChanges. -/
def isFalsyVal : Value → Bool
  | .null => true
  | .bool false => true
  | .num 0 => true
  | .str "" => true
  | _ => false

/-- splitDotAux splits a character list on dots, accumulating the current
segment in reverse. -/
def splitDotAux : List Char → List Char → List String
  | [], acc => [String.mk acc.reverse]
  | c :: rest, acc =>
    if c = '.' then String.mk acc.reverse :: splitDotAux rest []
    else splitDotAux rest (c :: acc)

/-- splitDot models JavaScript path.split(".") for a dot separator. -/
def splitDot (s : String) : List String :=
  splitDotAux s.data []

/-- listStartsWith decides whether the first list begins with the second. -/
def listStartsWith : List Char → List Char → Bool
  | _, [] => true
  | [], _ :: _ => false
  | c :: cs, d :: ds => c == d && listStartsWith cs ds

/-- strStartsWith models JavaScript s.startsWith(pre). -/
def strStartsWith (s pre : String) : Bool :=
  listStartsWith s.data pre.data

/-- shouldIgnorePath models shouldIgnorePath of main.ts: some configured
ignored path equals the path or is a proper dotted ancestor of it. -/
def shouldIgnorePath (cfg : Config) (path : String) : Bool :=
  cfg.ignoredPaths.any fun ignoredPath =>
    ignoredPath == path || strStartsWith path (ignoredPath ++ ".")

/-- joinPath models the propertyPath computation of detectChanges:
currentPath is falsy exactly when it is empty. -/
def joinPath (currentPath key : String) : String :=
  if currentPath = "" then key else currentPath ++ "." ++ key

mutual
/-- detectVal is the body of detectChanges of main.ts for a truthy
previous value: it enumerates the own properties of current (for-in) and
collects the changed ones. Scalars and null enumerate nothing. -/
def detectVal (cfg : Config) (p : Value) (cur : Value) (currentPath : String) :
    List (String × Value) :=
  match cur with
  | .obj fs => detectFields cfg p fs currentPath
  | .arr xs => detectIdx cfg p xs 0 currentPath
  | _ => []

/-- detectFields processes the fields of an object-valued current, in
order, mirroring the for-in loop body of detectChanges. -/
def detectFields (cfg : Config) (p : Value) (fs : List (String × Value))
    (currentPath : String) : List (String × Value) :=
  match fs with
  | [] => []
  | (key, cv) :: rest =>
    (if cfg.ignoredKeys.contains key then []
     else if shouldIgnorePath cfg (joinPath currentPath key) then []
     else
       match getProp p key with
       | some pv =>
         if isObjLike cv && isObjLike pv then
           let nested := detectVal cfg pv cv (joinPath currentPath key)
           if nested.isEmpty then [] else [(key, Value.obj nested)]
         else if stringify cv != stringify pv then [(key, cv)] else []
       | none => [(key, cv)])
    ++ detectFields cfg p rest currentPath

/-- detectIdx processes the elements of an array-valued current under
their index keys, mirroring the same for-in loop body (JavaScript for-in
over an array yields the index strings). -/
def detectIdx (cfg : Config) (p : Value) (xs : List Value) (i : Nat)
    (currentPath : String) : List (String × Value) :=
  match xs with
  | [] => []
  | cv :: rest =>
    (if cfg.ignoredKeys.contains (natToDecimal i) then []
     else if shouldIgnorePath cfg (joinPath currentPath (natToDecimal i)) then []
     else
       match getProp p (natToDecimal i) with
       | some pv =>
         if isObjLike cv && isObjLike pv then
           let nested := detectVal cfg pv cv (joinPath currentPath (natToDecimal i))
           if nested.isEmpty then [] else [(natToDecimal i, Value.obj nested)]
         else if stringify cv != stringify pv then [(natToDecimal i, cv)] else []
       | none => [(natToDecimal i, cv)])
    ++ detectIdx cfg p rest (i + 1) currentPath
end

/-- detectOne is the contribution of a single (key, current value) pair
to the change list: the for-in loop body of detectChanges. It equals the
head contribution of detectFields and detectIdx definitionally. -/
def detectOne (cfg : Config) (p : Value) (key : String) (cv : Value)
    (currentPath : String) : List (String × Value) :=
  if cfg.ignoredKeys.contains key then []
  else if shouldIgnorePath cfg (joinPath currentPath key) then []
  else
    match getProp p key with
    | some pv =>
      if isObjLike cv && isObjLike pv then
        let nested := detectVal cfg pv cv (joinPath currentPath key)
        if nested.isEmpty then [] else [(key, Value.obj nested)]
      else if stringify cv != stringify pv then [(key, cv)] else []
    | none => [(key, cv)]

/-- detectChanges models detectChanges of main.ts: a falsy previous
(null, absent baseline, or a falsy scalar baseline) returns current
whole; otherwise the property loop runs and its collected changes are
returned as an object. -/
def detectChanges (cfg : Config) (previous : Option Value) (current : Value)
    (currentPath : String) : Value :=
  match previous with
  | none => current
  | some p => if isFalsyVal p then current else .obj (detectVal cfg p current currentPath)

/-- resolveLoop is the segment loop of getValueByPath; none models the
JavaScript undefined that the loop returns early. -/
def resolveLoop : Option Value → List String → Option Value
  | cur, [] => cur
  | none, _ :: _ => none
  | some v, key :: rest =>
    if isObjLike v then resolveLoop (getProp v key) rest else none

/-- getValueByPath models getValueByPath of main.ts: empty path yields
undefined; otherwise the path splits on dots and each segment is a
property access, stopping with undefined as soon as the current value is
null, undefined, or not typeof object. -/
def getValueByPath (obj : Value) (path : String) : Option Value :=
  if path = "" then none
  else resolveLoop (some obj) (splitDot path)

/-- strictEq models JavaScript strict equality between a value resolved
from a freshly parsed message and the configured condition value: equal
scalars are strictly equal; composite values compare by reference, and
the two operands never alias (the config is parsed once at startup, the
message per delivery), so composite comparison is false. -/
def strictEq : Value → Value → Bool
  | .null, .null => true
  | .bool a, .bool b => a == b
  | .num a, .num b => a == b
  | .str a, .str b => a == b
  | _, _ => false

/-- strictEqOpt extends strictEq to an absent left operand: an undefined
resolution result is strictly equal to no configured condition value. -/
def strictEqOpt : Option Value → Value → Bool
  | some v, w => strictEq v w
  | none, _ => false

/-- passGate models the admission test of the message handler: an empty
condition path admits everything, otherwise the resolved value must be
strictly equal to the condition value. -/
def passGate (cond : FilterCondition) (msg : Value) : Bool :=
  if cond.path = "" then true
  else strictEqOpt (getValueByPath msg cond.path) cond.value

/-- objKeys models Object.keys on the values the handler applies it to. -/
def objKeys : Value → List String
  | .obj fs => fs.map Prod.fst
  | .arr xs => (idxEntries xs 0).map Prod.fst
  | _ => []

/-- jsNotNull models the loose comparison (previousMessage != null):
false for an absent baseline and for a null baseline. -/
def jsNotNull : Option Value → Bool
  | none => false
  | some .null => false
  | some _ => true

/-- handleMessage models one run of the message callback of main.ts over
the previousMessage state. The second argument of the input pair is the
decode result: none models a payload JSON.parse throws on (the catch
block logs and changes nothing). The result is the new previousMessage
state paired with the change set the handler logs, if any. -/
def handleMessage (cfg : Config) (previousMessage : Option Value)
    (decoded : Option Value) : Option Value × Option Value :=
  match decoded with
  | none => (previousMessage, none)
  | some jsonMessage =>
    if passGate cfg.condition jsonMessage then
      let changes := detectChanges cfg previousMessage jsonMessage ""
      let emitted :=
        if jsNotNull previousMessage && !(objKeys changes).isEmpty then
          some changes
        else none
      (some jsonMessage, emitted)
    else (previousMessage, none)

/-- valDigits evaluates a digit string back to a number; it is the
measure showing natToDecimal is injective. -/
def valDigits (cs : List Char) : Nat :=
  cs.foldl (fun a c => a * 10 + (c.toNat - 48)) 0

/-- keysOf lists the keys of an association list in order. -/
def keysOf (fs : List (String × Value)) : List String :=
  fs.map Prod.fst

/-- containsKey decides whether an association list binds a key. -/
def containsKey (fs : List (String × Value)) (key : String) : Bool :=
  fs.any fun p => p.1 == key

mutual
/-- wfb decides hereditary well-formedness of a decoded JSON value:
every object reachable inside it has pairwise-distinct keys. JSON.parse
never yields duplicate keys, so every value the program decodes is
well-formed; the spec data model likewise declares mapping keys unique. -/
def wfb : Value → Bool
  | .null => true
  | .bool _ => true
  | .num _ => true
  | .str _ => true
  | .arr xs => wfbList xs
  | .obj fs => wfbFields fs

/-- wfbList checks hereditary well-formedness of array elements. -/
def wfbList : List Value → Bool
  | [] => true
  | v :: rest => wfb v && wfbList rest

/-- wfbFields checks that object keys are pairwise distinct and the
bound values are hereditarily well-formed. -/
def wfbFields : List (String × Value) → Bool
  | [] => true
  | (k, v) :: rest => !containsKey rest k && wfb v && wfbFields rest
end

example : stringify (.obj [("a", .num 1), ("b", .arr [.null, .str "x"])]) =
    "\x7b\"a\":1,\"b\":[null,\"x\"]\x7d" := rfl

example : natToDecimal 10 = "10" := rfl

example : splitDot "a.b.c" = ["a", "b", "c"] := rfl

example : shouldIgnorePath ⟨[], ["device.battery"], ⟨"", .null⟩⟩ "device.battery.level" = true := rfl

example : shouldIgnorePath ⟨[], ["device.battery"], ⟨"", .null⟩⟩ "backup.battery" = false := rfl

example : getValueByPath (.obj [("a", .arr [.num 10, .num 20])]) "a.0" = some (.num 10) := rfl

example :
    detectVal ⟨[], [], ⟨"", .null⟩⟩
      (.obj [("temperature", .num 1), ("humidity", .num 2)])
      (.obj [("temperature", .num 5), ("humidity", .num 9)]) "" =
    [("temperature", .num 5), ("humidity", .num 9)] := rfl

example :
    detectVal ⟨["temperature"], [], ⟨"", .null⟩⟩
      (.obj [("temperature", .num 1), ("humidity", .num 2)])
      (.obj [("temperature", .num 5), ("humidity", .num 9)]) "" =
    [("humidity", .num 9)] := rfl

example :
    detectVal ⟨[], [], ⟨"", .null⟩⟩
      (.obj [("k", .obj [("a", .num 1), ("b", .num 2)])])
      (.obj [("k", .obj [("b", .num 2), ("a", .num 1)])]) "" = [] := rfl

theorem valDigits_append (as : List Char) (c : Char) :
    valDigits (as ++ [c]) = valDigits as * 10 + (c.toNat - 48) := by
  simp [valDigits]

theorem digitChar_toNat_mod (n : Nat) : (digitChar (n % 10)).toNat - 48 = n % 10 := by
  have h : n % 10 < 10 := Nat.mod_lt _ (by omega)
  set d := n % 10 with hd
  interval_cases d <;> rfl

theorem valDigits_natDigitsAux :
    ∀ (fuel n : Nat), n ≤ fuel → valDigits (natDigitsAux n fuel) = n := by
  intro fuel
  induction fuel with
  | zero =>
    intro n h
    have hn : n = 0 := by omega
    subst hn
    rfl
  | succ fuel ih =>
    intro n h
    match n with
    | 0 => rfl
    | m + 1 =>
      have hstep : natDigitsAux (m + 1) (fuel + 1) =
          natDigitsAux ((m + 1) / 10) fuel ++ [digitChar ((m + 1) % 10)] := rfl
      rw [hstep, valDigits_append, digitChar_toNat_mod]
      have hdiv : (m + 1) / 10 ≤ fuel := by
        have := Nat.div_lt_self (Nat.succ_pos m) (by omega : 1 < 10)
        omega
      rw [ih _ hdiv]
      omega

theorem valDigits_natToDecimal (n : Nat) : valDigits (natToDecimal n).data = n := by
  by_cases h : n = 0
  · subst h; rfl
  · have : natToDecimal n = String.mk (natDigitsAux n n) := by
      simp [natToDecimal, h]
    rw [this]
    exact valDigits_natDigitsAux n n (Nat.le_refl n)

theorem natToDecimal_inj {a b : Nat} (h : natToDecimal a = natToDecimal b) : a = b := by
  have := congrArg (fun s => valDigits s.data) h
  simpa [valDigits_natToDecimal] using this

theorem containsKey_iff (fs : List (String × Value)) (key : String) :
    containsKey fs key = true ↔ key ∈ keysOf fs := by
  induction fs with
  | nil => simp [containsKey, keysOf]
  | cons p rest ih =>
    obtain ⟨k0, v0⟩ := p
    have hstep : containsKey ((k0, v0) :: rest) key = (k0 == key || containsKey rest key) := by
      simp [containsKey]
    rw [hstep]
    simp only [Bool.or_eq_true, beq_iff_eq, ih, keysOf, List.map_cons, List.mem_cons]
    constructor
    · rintro (h | h)
      · exact Or.inl h.symm
      · exact Or.inr h
    · rintro (h | h)
      · exact Or.inl h.symm
      · exact Or.inr h

theorem wfbFields_cons {k : String} {v : Value} {rest : List (String × Value)}
    (h : wfbFields ((k, v) :: rest) = true) :
    containsKey rest k = false ∧ wfb v = true ∧ wfbFields rest = true := by
  have hstep : wfbFields ((k, v) :: rest) =
      (!containsKey rest k && wfb v && wfbFields rest) := rfl
  rw [hstep] at h
  simp only [Bool.and_eq_true, Bool.not_eq_true'] at h
  exact ⟨h.1.1, h.1.2, h.2⟩

theorem wfbFields_wfb_of_mem {fs : List (String × Value)} {k : String} {v : Value}
    (hwf : wfbFields fs = true) (hmem : (k, v) ∈ fs) : wfb v = true := by
  induction fs with
  | nil => cases hmem
  | cons p rest ih =>
    obtain ⟨k0, v0⟩ := p
    obtain ⟨hc, hv, hrest⟩ := wfbFields_cons hwf
    rcases List.mem_cons.mp hmem with h | h
    · cases h; exact hv
    · exact ih hrest h

theorem wfbList_wfb_of_mem {xs : List Value} {v : Value}
    (hwf : wfbList xs = true) (hmem : v ∈ xs) : wfb v = true := by
  induction xs with
  | nil => cases hmem
  | cons x rest ih =>
    have hstep : wfbList (x :: rest) = (wfb x && wfbList rest) := rfl
    rw [hstep] at hwf
    simp only [Bool.and_eq_true] at hwf
    rcases List.mem_cons.mp hmem with h | h
    · cases h; exact hwf.1
    · exact ih hwf.2 h

theorem lookupFields_of_mem_nodup {fs : List (String × Value)} {k : String} {v : Value}
    (hnd : (keysOf fs).Nodup) (hmem : (k, v) ∈ fs) : lookupFields fs k = some v := by
  induction fs with
  | nil => cases hmem
  | cons p rest ih =>
    obtain ⟨k0, v0⟩ := p
    have hnd' : k0 ∉ keysOf rest ∧ (keysOf rest).Nodup := by
      simpa [keysOf] using hnd
    rcases List.mem_cons.mp hmem with h | h
    · cases h
      simp [lookupFields]
    · by_cases hk : k0 = k
      · subst hk
        exact absurd (by simpa [keysOf] using List.mem_map_of_mem Prod.fst h) hnd'.1
      · simp only [lookupFields, if_neg hk]
        exact ih hnd'.2 h

theorem mem_of_lookupFields {fs : List (String × Value)} {k : String} {v : Value}
    (h : lookupFields fs k = some v) : (k, v) ∈ fs := by
  induction fs with
  | nil => simp [lookupFields] at h
  | cons p rest ih =>
    obtain ⟨k0, v0⟩ := p
    by_cases hk : k0 = k
    · subst hk
      simp [lookupFields] at h
      subst h
      exact List.mem_cons_self _ _
    · simp only [lookupFields, if_neg hk] at h
      exact List.mem_cons_of_mem _ (ih h)

theorem wfbFields_nodup {fs : List (String × Value)}
    (h : wfbFields fs = true) : (keysOf fs).Nodup := by
  induction fs with
  | nil => simp [keysOf]
  | cons p rest ih =>
    obtain ⟨k0, v0⟩ := p
    obtain ⟨hc, _, hrest⟩ := wfbFields_cons h
    have hk0 : k0 ∉ keysOf rest := by
      intro hmem
      rw [(containsKey_iff rest k0).mpr hmem] at hc
      cases hc
    simpa [keysOf] using And.intro hk0 (ih hrest)

theorem mem_idxEntries {xs : List Value} :
    ∀ {i : Nat} {kv : String × Value}, kv ∈ idxEntries xs i →
      (∃ m, i ≤ m ∧ kv.1 = natToDecimal m) ∧ kv.2 ∈ xs := by
  induction xs with
  | nil => intro i kv h; cases h
  | cons x rest ih =>
    intro i kv h
    have hstep : idxEntries (x :: rest) i = (natToDecimal i, x) :: idxEntries rest (i + 1) := rfl
    rw [hstep] at h
    rcases List.mem_cons.mp h with h | h
    · subst h
      exact ⟨⟨i, Nat.le_refl i, rfl⟩, List.mem_cons_self _ _⟩
    · obtain ⟨⟨m, hm, hk⟩, hv⟩ := ih h
      exact ⟨⟨m, by omega, hk⟩, List.mem_cons_of_mem _ hv⟩

theorem mem_keysOf_idxEntries {xs : List Value} {i : Nat} {k : String}
    (h : k ∈ keysOf (idxEntries xs i)) : ∃ m, i ≤ m ∧ k = natToDecimal m := by
  obtain ⟨kv, hkv, hk⟩ := List.mem_map.mp h
  obtain ⟨⟨m, hm, hk1⟩, _⟩ := mem_idxEntries hkv
  exact ⟨m, hm, hk ▸ hk1⟩

theorem idxEntries_keys_nodup (xs : List Value) : ∀ (i : Nat),
    (keysOf (idxEntries xs i)).Nodup := by
  induction xs with
  | nil => intro i; simp [idxEntries, keysOf]
  | cons x rest ih =>
    intro i
    have hstep : idxEntries (x :: rest) i = (natToDecimal i, x) :: idxEntries rest (i + 1) := rfl
    rw [hstep]
    have hnotin : natToDecimal i ∉ keysOf (idxEntries rest (i + 1)) := by
      intro hmem
      obtain ⟨m, hm, hk⟩ := mem_keysOf_idxEntries hmem
      have := natToDecimal_inj hk
      omega
    simpa [keysOf] using And.intro hnotin (ih (i + 1))

theorem idxEntries_get_mem (xs : List Value) :
    ∀ (i j : Nat) (h : j < xs.length),
      (natToDecimal (i + j), xs.get ⟨j, h⟩) ∈ idxEntries xs i := by
  induction xs with
  | nil => intro i j h; simp at h
  | cons x rest ih =>
    intro i j h
    have hstep : idxEntries (x :: rest) i = (natToDecimal i, x) :: idxEntries rest (i + 1) := rfl
    rw [hstep]
    match j with
    | 0 => simp [List.get]
    | j + 1 =>
      have h' : j < rest.length := by simpa using h
      have := ih (i + 1) j h'
      have harith : i + 1 + j = i + (j + 1) := by omega
      rw [harith] at this
      exact List.mem_cons_of_mem _ this

theorem entries_sizeOf {v : Value} {kv : String × Value}
    (h : kv ∈ entries v) : sizeOf kv.2 < sizeOf v := by
  obtain ⟨k, w⟩ := kv
  match v with
  | .null | .bool _ | .num _ | .str _ => simp [entries] at h
  | .obj fs =>
    have h1 : sizeOf (k, w) < sizeOf fs := List.sizeOf_lt_of_mem h
    have h2 : sizeOf (k, w) = 1 + sizeOf k + sizeOf w := rfl
    simp only [Value.obj.sizeOf_spec]
    omega
  | .arr xs =>
    have hw : w ∈ xs := (mem_idxEntries h).2
    have h1 : sizeOf w < sizeOf xs := List.sizeOf_lt_of_mem hw
    simp only [Value.arr.sizeOf_spec]
    omega

theorem entries_self {v : Value} (hwf : wfb v = true) :
    ∀ kv ∈ entries v, getProp v kv.1 = some kv.2 ∧ wfb kv.2 = true := by
  intro kv hkv
  obtain ⟨k, w⟩ := kv
  match v with
  | .null | .bool _ | .num _ | .str _ => simp [entries] at hkv
  | .obj fs =>
    have hfs : wfbFields fs = true := hwf
    have hmem : (k, w) ∈ fs := hkv
    exact ⟨lookupFields_of_mem_nodup (wfbFields_nodup hfs) hmem,
      wfbFields_wfb_of_mem hfs hmem⟩
  | .arr xs =>
    have hxs : wfbList xs = true := hwf
    have hmem : (k, w) ∈ idxEntries xs 0 := hkv
    exact ⟨lookupFields_of_mem_nodup (idxEntries_keys_nodup xs 0) hmem,
      wfbList_wfb_of_mem hxs (mem_idxEntries hmem).2⟩

theorem detectVal_obj (cfg : Config) (p : Value) (fs : List (String × Value)) (path : String) :
    detectVal cfg p (.obj fs) path = detectFields cfg p fs path := rfl

theorem detectVal_arr (cfg : Config) (p : Value) (xs : List Value) (path : String) :
    detectVal cfg p (.arr xs) path = detectIdx cfg p xs 0 path := rfl

theorem detectFields_cons (cfg : Config) (p : Value) (key : String) (cv : Value)
    (rest : List (String × Value)) (path : String) :
    detectFields cfg p ((key, cv) :: rest) path =
      detectOne cfg p key cv path ++ detectFields cfg p rest path := rfl

theorem detectIdx_cons (cfg : Config) (p : Value) (cv : Value) (rest : List Value)
    (i : Nat) (path : String) :
    detectIdx cfg p (cv :: rest) i path =
      detectOne cfg p (natToDecimal i) cv path ++ detectIdx cfg p rest (i + 1) path := rfl

theorem detectOne_empty_self (cfg : Config) (p : Value) (key : String) (cv : Value)
    (path : String) (hlook : getProp p key = some cv)
    (hrec : detectVal cfg cv cv (joinPath path key) = []) :
    detectOne cfg p key cv path = [] := by
  simp [detectOne, hlook, hrec, bne_self_eq_false]

theorem detectVal_empty_of_lookup_fuel :
    ∀ (n : Nat) (cfg : Config) (p cur : Value) (path : String),
      sizeOf cur < n →
      (∀ kv ∈ entries cur, getProp p kv.1 = some kv.2 ∧ wfb kv.2 = true) →
      detectVal cfg p cur path = [] := by
  intro n
  induction n with
  | zero => intro cfg p cur path h _; omega
  | succ n ih =>
    intro cfg p cur path hsz hcond
    have innerF : ∀ (gs : List (String × Value)),
        (∀ kv ∈ gs, getProp p kv.1 = some kv.2 ∧ wfb kv.2 = true ∧ sizeOf kv.2 < n) →
        detectFields cfg p gs path = [] := by
      intro gs
      induction gs with
      | nil => intro _; rfl
      | cons kv rest ihgs =>
        intro h
        obtain ⟨key, cv⟩ := kv
        rw [detectFields_cons]
        obtain ⟨hl, hw, hs⟩ := h (key, cv) (List.mem_cons_self _ _)
        have hone := detectOne_empty_self cfg p key cv path hl
          (ih cfg cv cv (joinPath path key) hs (entries_self hw))
        rw [hone, List.nil_append]
        exact ihgs (fun kv2 hkv2 => h kv2 (List.mem_cons_of_mem _ hkv2))
    have innerI : ∀ (ys : List Value) (i : Nat),
        (∀ kv ∈ idxEntries ys i, getProp p kv.1 = some kv.2 ∧ wfb kv.2 = true ∧ sizeOf kv.2 < n) →
        detectIdx cfg p ys i path = [] := by
      intro ys
      induction ys with
      | nil => intro _ _; rfl
      | cons cv rest ihys =>
        intro i h
        rw [detectIdx_cons]
        have hmem : (natToDecimal i, cv) ∈ idxEntries (cv :: rest) i :=
          List.mem_cons_self _ _
        obtain ⟨hl, hw, hs⟩ := h (natToDecimal i, cv) hmem
        have hone := detectOne_empty_self cfg p (natToDecimal i) cv path hl
          (ih cfg cv cv (joinPath path (natToDecimal i)) hs (entries_self hw))
        rw [hone, List.nil_append]
        exact ihys (i + 1) (fun kv2 hkv2 => h kv2 (List.mem_cons_of_mem _ hkv2))
    cases cur with
    | null => rfl
    | bool b => rfl
    | num m => rfl
    | str s => rfl
    | obj fs =>
      rw [detectVal_obj]
      refine innerF fs (fun kv hkv => ?_)
      have h1 := hcond kv hkv
      have h2 := entries_sizeOf (show kv ∈ entries (Value.obj fs) from hkv)
      exact ⟨h1.1, h1.2, by omega⟩
    | arr xs =>
      rw [detectVal_arr]
      refine innerI xs 0 (fun kv hkv => ?_)
      have h1 := hcond kv hkv
      have h2 := entries_sizeOf (show kv ∈ entries (Value.arr xs) from hkv)
      exact ⟨h1.1, h1.2, by omega⟩

theorem detectVal_empty_of_lookup (cfg : Config) (p cur : Value) (path : String)
    (h : ∀ kv ∈ entries cur, getProp p kv.1 = some kv.2 ∧ wfb kv.2 = true) :
    detectVal cfg p cur path = [] :=
  detectVal_empty_of_lookup_fuel (sizeOf cur + 1) cfg p cur path (by omega) h

theorem detectVal_self_empty (cfg : Config) {v : Value} (hwf : wfb v = true)
    (path : String) : detectVal cfg v v path = [] :=
  detectVal_empty_of_lookup cfg v v path (entries_self hwf)

theorem detectOne_keys {cfg : Config} {p : Value} {key : String} {cv : Value}
    {path : String} {k : String}
    (hk : k ∈ keysOf (detectOne cfg p key cv path)) : k = key := by
  unfold detectOne at hk
  repeat' split at hk
  all_goals simp_all [keysOf]

theorem detectFields_keys_sub {cfg : Config} {p : Value} {path : String} :
    ∀ {fs : List (String × Value)} {k : String},
      k ∈ keysOf (detectFields cfg p fs path) → k ∈ keysOf fs := by
  intro fs
  induction fs with
  | nil => intro k hk; simp [detectFields, keysOf] at hk
  | cons kv rest ih =>
    intro k hk
    obtain ⟨key, cv⟩ := kv
    rw [detectFields_cons] at hk
    simp only [keysOf, List.map_append, List.mem_append] at hk
    rcases hk with hk | hk
    · have := detectOne_keys (k := k) hk
      simp [keysOf, this]
    · have := ih hk
      simp only [keysOf, List.map_cons, List.mem_cons]
      exact Or.inr this

theorem detect_keys_absent {cfg : Config} {p : Value} {path : String} :
    ∀ {cfs : List (String × Value)} {k : String} {cv : Value},
      (keysOf cfs).Nodup → lookupFields cfs k = some cv →
      detectOne cfg p k cv path = [] →
      k ∉ keysOf (detectFields cfg p cfs path) := by
  intro cfs
  induction cfs with
  | nil => intro k cv _ hl _; simp [lookupFields] at hl
  | cons kv rest ih =>
    intro k cv hnd hl hone hk
    obtain ⟨k0, cv0⟩ := kv
    have hnd' : k0 ∉ keysOf rest ∧ (keysOf rest).Nodup := by
      simpa [keysOf] using hnd
    rw [detectFields_cons] at hk
    simp only [keysOf, List.map_append, List.mem_append] at hk
    by_cases hk0 : k0 = k
    · subst hk0
      simp [lookupFields] at hl
      subst hl
      rcases hk with hk | hk
      · rw [hone] at hk
        simp [keysOf] at hk
      · exact hnd'.1 (detectFields_keys_sub hk)
    · rcases hk with hk | hk
      · exact hk0 (detectOne_keys (k := k) hk).symm
      · have hl' : lookupFields rest k = some cv := by
          simpa [lookupFields, hk0] using hl
        exact ih hnd'.2 hl' hone hk

theorem listStartsWith_iff : ∀ (ds cs : List Char),
    listStartsWith cs ds = true ↔ ∃ es, cs = ds ++ es := by
  intro ds
  induction ds with
  | nil =>
    intro cs
    cases cs with
    | nil => simp [listStartsWith]
    | cons c cs => simp [listStartsWith]
  | cons d ds ih =>
    intro cs
    cases cs with
    | nil => simp [listStartsWith]
    | cons c cs =>
      have hstep : listStartsWith (c :: cs) (d :: ds) = (c == d && listStartsWith cs ds) := rfl
      rw [hstep]
      simp [Bool.and_eq_true, beq_iff_eq, ih cs, List.cons_eq_cons]

theorem strStartsWith_iff (s pre : String) :
    strStartsWith s pre = true ↔ ∃ t : String, s = pre ++ t := by
  unfold strStartsWith
  rw [listStartsWith_iff]
  constructor
  · rintro ⟨es, h⟩
    refine ⟨String.mk es, String.ext ?_⟩
    rw [String.data_append]
    exact h
  · rintro ⟨t, rfl⟩
    exact ⟨t.data, by rw [String.data_append]⟩

theorem shouldIgnorePath_iff (cfg : Config) (p : String) :
    shouldIgnorePath cfg p = true ↔
      ∃ e ∈ cfg.ignoredPaths, e = p ∨ ∃ suffix, p = e ++ "." ++ suffix := by
  unfold shouldIgnorePath
  rw [List.any_eq_true]
  constructor
  · rintro ⟨e, he, hcond⟩
    rcases Bool.or_eq_true_iff.mp hcond with h | h
    · exact ⟨e, he, Or.inl (by simpa using h)⟩
    · obtain ⟨t, ht⟩ := (strStartsWith_iff p (e ++ ".")).mp h
      exact ⟨e, he, Or.inr ⟨t, ht⟩⟩
  · rintro ⟨e, he, h | ⟨t, ht⟩⟩
    · exact ⟨e, he, Bool.or_eq_true_iff.mpr (Or.inl (by simpa using h))⟩
    · refine ⟨e, he, Bool.or_eq_true_iff.mpr (Or.inr ?_)⟩
      exact (strStartsWith_iff p (e ++ ".")).mpr ⟨t, ht⟩

theorem detectOne_empty_nested (cfg : Config) (p : Value) (key : String) (pv cv : Value)
    (path : String) (hlook : getProp p key = some pv) (hop : isObjLike pv = true)
    (hoc : isObjLike cv = true)
    (hempty : detectVal cfg pv cv (joinPath path key) = []) :
    detectOne cfg p key cv path = [] := by
  simp [detectOne, hlook, hop, hoc, hempty]

theorem objKeys_detectChanges_obj (cfg : Config) (pfs cfs : List (String × Value))
    (path : String) :
    objKeys (detectChanges cfg (some (.obj pfs)) (.obj cfs) path) =
      keysOf (detectFields cfg (.obj pfs) cfs path) := rfl

theorem perm_entry_not_reported (cfg : Config) (pfs cfs m1 m2 : List (String × Value))
    (k : String)
    (hwp : wfb (.obj pfs) = true) (hwc : wfb (.obj cfs) = true)
    (hp : getProp (.obj pfs) k = some (.obj m1))
    (hc : getProp (.obj cfs) k = some (.obj m2))
    (hperm : m1.Perm m2) :
    detectVal cfg (.obj m1) (.obj m2) (joinPath "" k) = [] ∧
    k ∉ objKeys (detectChanges cfg (some (.obj pfs)) (.obj cfs) "") := by
  have hwm1 : wfb (.obj m1) = true :=
    wfbFields_wfb_of_mem hwp (mem_of_lookupFields hp)
  have hwm2 : wfb (.obj m2) = true :=
    wfbFields_wfb_of_mem hwc (mem_of_lookupFields hc)
  have hempty : detectVal cfg (.obj m1) (.obj m2) (joinPath "" k) = [] := by
    apply detectVal_empty_of_lookup
    intro kv hkv
    have hkv2 : kv ∈ m2 := hkv
    have hkv1 : kv ∈ m1 := hperm.mem_iff.mpr hkv2
    refine ⟨?_, wfbFields_wfb_of_mem hwm2 (by simpa using hkv2)⟩
    exact lookupFields_of_mem_nodup (wfbFields_nodup hwm1) (by simpa using hkv1)
  have hone := detectOne_empty_nested cfg (.obj pfs) k (.obj m1) (.obj m2) "" hp rfl rfl hempty
  refine ⟨hempty, ?_⟩
  intro hk
  exact detect_keys_absent (wfbFields_nodup hwc)
    (show lookupFields cfs k = some (.obj m2) from hc) hone hk

/-- C1: for every structured value of mapping type (well-formed, as the
data model requires unique keys), diffing it against itself with both
ignore sets empty reports no changes at any depth: the result is the
empty mapping. -/
theorem claim_C1 (cond : FilterCondition) (fs : List (String × Value)) (path : String)
    (hwf : wfb (.obj fs) = true) :
    detectChanges ⟨[], [], cond⟩ (some (.obj fs)) (.obj fs) path = .obj [] := by
  have h1 : detectChanges ⟨[], [], cond⟩ (some (.obj fs)) (.obj fs) path =
      .obj (detectVal ⟨[], [], cond⟩ (.obj fs) (.obj fs) path) := rfl
  rw [h1, detectVal_self_empty _ hwf path]

theorem claim_C1_witness :
    wfb (.obj [("a", .num 1)]) = true ∧
    detectChanges ⟨[], [], ⟨"", .null⟩⟩ (some (.obj [("a", .num 1)]))
      (.obj [("a", .num 1)]) "" = .obj [] :=
  ⟨rfl, claim_C1 ⟨"", .null⟩ [("a", .num 1)] "" rfl⟩

/-- C2: when previous is absent, the diff returns current itself, whole,
for every value and every ignore configuration: the seed case applies no
suppression rule. -/
theorem claim_C2 (cfg : Config) (X : Value) (path : String) :
    detectChanges cfg none X path = X := rfl

/-- C3: every key reported by a diff of two mappings is a key of the
current mapping, for any ignore configuration: keys only in previous
(deletions) are never reported. -/
theorem claim_C3 (cfg : Config) (pfs cfs : List (String × Value)) (path : String)
    (k : String)
    (hk : k ∈ objKeys (detectChanges cfg (some (.obj pfs)) (.obj cfs) path)) :
    k ∈ keysOf cfs := by
  rw [objKeys_detectChanges_obj] at hk
  exact detectFields_keys_sub hk

theorem claim_C3_witness :
    "a" ∈ objKeys (detectChanges ⟨[], [], ⟨"", .null⟩⟩ (some (.obj []))
      (.obj [("a", .num 1)]) "") ∧
    "a" ∈ keysOf [("a", .num 1)] :=
  ⟨by decide, claim_C3 ⟨[], [], ⟨"", .null⟩⟩ [] [("a", .num 1)] "" "a" (by decide)⟩

/-- C4: the path matcher suppresses exactly the paths that equal an
ignored entry or extend one past a dot; in particular device.battery
suppresses device.battery.level but not backup.battery. -/
theorem claim_C4 :
    (∀ (ik ip : List String) (cond : FilterCondition) (p : String),
        shouldIgnorePath ⟨ik, ip, cond⟩ p = true ↔
          ∃ e ∈ ip, e = p ∨ ∃ suffix, p = e ++ "." ++ suffix) ∧
    shouldIgnorePath ⟨[], ["device.battery"], ⟨"", .null⟩⟩ "device.battery.level" = true ∧
    shouldIgnorePath ⟨[], ["device.battery"], ⟨"", .null⟩⟩ "backup.battery" = false :=
  ⟨fun ik ip cond p => shouldIgnorePath_iff ⟨ik, ip, cond⟩ p, rfl, rfl⟩

/-- C5: when previous and current both hold non-null mapping-typed values
at a key and the recursive diff of those values is empty (every inner
change suppressed, or none), the key does not appear in the output at
all. -/
theorem claim_C5 (cfg : Config) (pfs cfs : List (String × Value)) (path : String)
    (k : String) (pv cv : Value)
    (hwfc : wfb (.obj cfs) = true)
    (hp : getProp (.obj pfs) k = some pv)
    (hc : getProp (.obj cfs) k = some cv)
    (hop : isObjLike pv = true) (hoc : isObjLike cv = true)
    (hempty : detectVal cfg pv cv (joinPath path k) = []) :
    k ∉ objKeys (detectChanges cfg (some (.obj pfs)) (.obj cfs) path) := by
  rw [objKeys_detectChanges_obj]
  exact detect_keys_absent (wfbFields_nodup hwfc)
    (show lookupFields cfs k = some cv from hc)
    (detectOne_empty_nested cfg (.obj pfs) k pv cv path hp hop hoc hempty)

theorem claim_C5_witness :
    detectVal ⟨["a"], [], ⟨"", .null⟩⟩ (.obj [("a", .num 1)]) (.obj [("a", .num 2)])
      (joinPath "" "k") = [] ∧
    "k" ∉ objKeys (detectChanges ⟨["a"], [], ⟨"", .null⟩⟩
      (some (.obj [("k", .obj [("a", .num 1)])]))
      (.obj [("k", .obj [("a", .num 2)])]) "") :=
  ⟨rfl, claim_C5 ⟨["a"], [], ⟨"", .null⟩⟩ [("k", .obj [("a", .num 1)])]
    [("k", .obj [("a", .num 2)])] "" "k" (.obj [("a", .num 1)]) (.obj [("a", .num 2)])
    rfl rfl rfl rfl rfl rfl⟩

/-- C6: the gate admits every message when the condition path is empty;
with a non-empty path it admits exactly when the path resolves to a value
strictly equal to the condition value; a message it rejects is not
diffed: the handler leaves the baseline unchanged and emits nothing. -/
theorem claim_C6 (cond : FilterCondition) (ik ip : List String) (st : Option Value)
    (msg : Value) :
    (cond.path = "" → passGate cond msg = true) ∧
    (cond.path ≠ "" →
      (passGate cond msg = true ↔
        ∃ v, getValueByPath msg cond.path = some v ∧ strictEq v cond.value = true)) ∧
    (passGate cond msg = false →
      handleMessage ⟨ik, ip, cond⟩ st (some msg) = (st, none)) := by
  refine ⟨?_, ?_, ?_⟩
  · intro h
    simp [passGate, h]
  · intro h
    simp only [passGate, if_neg h]
    cases hg : getValueByPath msg cond.path with
    | none => simp [strictEqOpt]
    | some v => simp [strictEqOpt]
  · intro h
    simp [handleMessage, h]

theorem claim_C6_witness :
    passGate ⟨"print.command", .str "push_status"⟩ (.obj [("x", .num 1)]) = false ∧
    handleMessage ⟨[], [], ⟨"print.command", .str "push_status"⟩⟩
        (some (.obj [("b", .num 2)])) (some (.obj [("x", .num 1)])) =
      (some (.obj [("b", .num 2)]), none) :=
  ⟨rfl, (claim_C6 ⟨"print.command", .str "push_status"⟩ [] []
    (some (.obj [("b", .num 2)])) (.obj [("x", .num 1)])).2.2 rfl⟩

/-- C7 counterexample: the resolver does index into an ordered sequence:
on the mapping a maps to the sequence (10, 20), the path a.0 resolves to
10 instead of returning absent as the claim states. -/
theorem claim_C7_counterexample :
    getValueByPath (.obj [("a", .arr [.num 10, .num 20])]) "a.0" = some (.num 10) ∧
    getValueByPath (.obj [("a", .arr [.num 10, .num 20])]) "a.0" ≠ none :=
  ⟨rfl, fun h => Option.noConfusion h⟩

/-- C7 amended: resolution stops with absent when it reaches a scalar or
null (any value that is not typeof object) before the segments run out;
a sequence however is traversed like a mapping keyed by canonical decimal
indices: an in-range canonical numeric segment steps to that element. -/
theorem claim_C7_amended :
    (∀ (v : Value) (key : String) (rest : List String),
        isObjLike v = false → resolveLoop (some v) (key :: rest) = none) ∧
    (∀ (xs : List Value) (i : Nat) (rest : List String) (h : i < xs.length),
        resolveLoop (some (.arr xs)) (natToDecimal i :: rest) =
          resolveLoop (some (xs.get ⟨i, h⟩)) rest) := by
  constructor
  · intro v key rest h
    simp [resolveLoop, h]
  · intro xs i rest h
    have hstep : resolveLoop (some (.arr xs)) (natToDecimal i :: rest) =
        resolveLoop (getProp (.arr xs) (natToDecimal i)) rest := by
      simp [resolveLoop, isObjLike]
    have hlook : getProp (.arr xs) (natToDecimal i) = some (xs.get ⟨i, h⟩) := by
      show lookupFields (idxEntries xs 0) (natToDecimal i) = _
      refine lookupFields_of_mem_nodup (idxEntries_keys_nodup xs 0) ?_
      have := idxEntries_get_mem xs 0 i h
      simpa using this
    rw [hstep, hlook]

theorem claim_C7_witness :
    isObjLike (Value.num 5) = false ∧
    resolveLoop (some (Value.num 5)) ["x"] = none ∧
    1 < [Value.num 10, Value.num 20].length ∧
    resolveLoop (some (.arr [.num 10, .num 20])) (natToDecimal 1 :: []) =
      resolveLoop (some (Value.num 20)) [] :=
  ⟨rfl, claim_C7_amended.1 (Value.num 5) "x" [] rfl, by decide,
    claim_C7_amended.2 [Value.num 10, Value.num 20] 1 [] (by decide)⟩

/-- C8 counterexample: there is no configuration and no pair of
well-formed mappings whose values at a key are equal-up-to-insertion-order
mappings for which that key is reported: the claim's reported change
cannot occur, because two mapping-typed values always take the recursive
branch, never the encoding comparison. -/
theorem claim_C8_counterexample :
    ¬ ∃ (cfg : Config) (pfs cfs m1 m2 : List (String × Value)) (k : String),
        wfb (.obj pfs) = true ∧ wfb (.obj cfs) = true ∧
        getProp (.obj pfs) k = some (.obj m1) ∧
        getProp (.obj cfs) k = some (.obj m2) ∧
        m1.Perm m2 ∧ m1 ≠ m2 ∧
        k ∈ objKeys (detectChanges cfg (some (.obj pfs)) (.obj cfs) "") := by
  rintro ⟨cfg, pfs, cfs, m1, m2, k, hwp, hwc, hp, hc, hperm, hne, hk⟩
  exact (perm_entry_not_reported cfg pfs cfs m1 m2 k hwp hwc hp hc hperm).2 hk

/-- C8 amended: when previous and current are well-formed mappings whose
values at k are mappings with identical key/value pairs in different
insertion order, the recursive branch intercepts them: their nested diff
is empty and k is not reported at all (the order-sensitive encoding
comparison is never applied to two mapping-typed values). -/
theorem claim_C8_amended (cfg : Config) (pfs cfs m1 m2 : List (String × Value))
    (k : String)
    (hwp : wfb (.obj pfs) = true) (hwc : wfb (.obj cfs) = true)
    (hp : getProp (.obj pfs) k = some (.obj m1))
    (hc : getProp (.obj cfs) k = some (.obj m2))
    (hperm : m1.Perm m2) (_hne : m1 ≠ m2) :
    detectVal cfg (.obj m1) (.obj m2) (joinPath "" k) = [] ∧
    k ∉ objKeys (detectChanges cfg (some (.obj pfs)) (.obj cfs) "") :=
  perm_entry_not_reported cfg pfs cfs m1 m2 k hwp hwc hp hc hperm

theorem claim_C8_witness :
    [("a", Value.num 1), ("b", Value.num 2)].Perm
      [("b", Value.num 2), ("a", Value.num 1)] ∧
    "k" ∉ objKeys (detectChanges ⟨[], [], ⟨"", .null⟩⟩
      (some (.obj [("k", .obj [("a", .num 1), ("b", .num 2)])]))
      (.obj [("k", .obj [("b", .num 2), ("a", .num 1)])]) "") :=
  ⟨List.Perm.swap _ _ _,
    (claim_C8_amended ⟨[], [], ⟨"", .null⟩⟩
      [("k", .obj [("a", .num 1), ("b", .num 2)])]
      [("k", .obj [("b", .num 2), ("a", .num 1)])]
      [("a", .num 1), ("b", .num 2)] [("b", .num 2), ("a", .num 1)] "k"
      rfl rfl rfl rfl (List.Perm.swap _ _ _)
      (fun h => absurd (congrArg keysOf h) (by decide))).2⟩

/-- C9: a payload that fails to decode leaves the handler state exactly
as it was and emits nothing: the malformed message has no effect on
subsequent diffs. -/
theorem claim_C9 (cfg : Config) (st : Option Value) :
    handleMessage cfg st none = (st, none) := rfl

/-- C10: a sequence and a mapping whose keys are the stringified
positional indices of pairwise-equal elements are indistinguishable to
the diff: with such values at key k on the two sides (either way round),
k is not reported. -/
theorem claim_C10 (cfg : Config) (pfs cfs : List (String × Value)) (k : String)
    (xs : List Value)
    (hwp : wfb (.obj pfs) = true) (hwc : wfb (.obj cfs) = true)
    (hdir : (getProp (.obj pfs) k = some (.arr xs) ∧
             getProp (.obj cfs) k = some (.obj (idxEntries xs 0))) ∨
            (getProp (.obj pfs) k = some (.obj (idxEntries xs 0)) ∧
             getProp (.obj cfs) k = some (.arr xs))) :
    k ∉ objKeys (detectChanges cfg (some (.obj pfs)) (.obj cfs) "") := by
  have hcore : ∀ kv ∈ idxEntries xs 0,
      lookupFields (idxEntries xs 0) kv.1 = some kv.2 := by
    intro kv hkv
    exact lookupFields_of_mem_nodup (idxEntries_keys_nodup xs 0) (by simpa using hkv)
  rw [objKeys_detectChanges_obj]
  rcases hdir with ⟨hp, hc⟩ | ⟨hp, hc⟩
  · have hwxs : wfb (.arr xs) = true := wfbFields_wfb_of_mem hwp (mem_of_lookupFields hp)
    have hempty : detectVal cfg (.arr xs) (.obj (idxEntries xs 0)) (joinPath "" k) = [] := by
      apply detectVal_empty_of_lookup
      intro kv hkv
      exact ⟨hcore kv hkv,
        wfbList_wfb_of_mem hwxs (mem_idxEntries (show kv ∈ idxEntries xs 0 from hkv)).2⟩
    exact detect_keys_absent (wfbFields_nodup hwc)
      (show lookupFields cfs k = some (.obj (idxEntries xs 0)) from hc)
      (detectOne_empty_nested cfg (.obj pfs) k (.arr xs) (.obj (idxEntries xs 0)) ""
        hp rfl rfl hempty)
  · have hwxs : wfb (.arr xs) = true := wfbFields_wfb_of_mem hwc (mem_of_lookupFields hc)
    have hempty : detectVal cfg (.obj (idxEntries xs 0)) (.arr xs) (joinPath "" k) = [] := by
      apply detectVal_empty_of_lookup
      intro kv hkv
      exact ⟨hcore kv hkv,
        wfbList_wfb_of_mem hwxs (mem_idxEntries (show kv ∈ idxEntries xs 0 from hkv)).2⟩
    exact detect_keys_absent (wfbFields_nodup hwc)
      (show lookupFields cfs k = some (.arr xs) from hc)
      (detectOne_empty_nested cfg (.obj pfs) k (.obj (idxEntries xs 0)) (.arr xs) ""
        hp rfl rfl hempty)

theorem claim_C10_witness :
    wfb (.obj [("k", .arr [.num 7])]) = true ∧
    getProp (.obj [("k", .obj [("0", .num 7)])]) "k" =
      some (.obj (idxEntries [.num 7] 0)) ∧
    "k" ∉ objKeys (detectChanges ⟨[], [], ⟨"", .null⟩⟩
      (some (.obj [("k", .arr [.num 7])]))
      (.obj [("k", .obj [("0", .num 7)])]) "") :=
  ⟨rfl, rfl, claim_C10 ⟨[], [], ⟨"", .null⟩⟩ [("k", .arr [.num 7])]
    [("k", .obj [("0", .num 7)])] "k" [.num 7] rfl rfl (Or.inl ⟨rfl, rfl⟩)⟩
